import Mathlib

/-!
Shallow embedding of `readability_tools.py`.

The module computes readability metrics over tokenized text.  External
collaborators (the CMU pronouncing dictionary, the nltk word and sentence
tokenizers, and the nltk POS tagger) are modelled as explicit parameters:
the dictionary as a partial map from a lowercased word to its list of
pronunciation variants (each a list of phoneme strings), the tokenizers as
functions from text to token lists, and the tagger as a function from a
word list to a list of word/tag pairs.

Python machine behaviour that matters here and is embedded explicitly:
`round` is round-half-to-even; list slices convert negative indices by
adding the length and clamp into range; `str.strip('-')` removes the given
character only at both ends; `str.split('-')` keeps empty pieces.
Numbers are modelled as `Int`/`Rat` (Python ints and exact values of the
float expressions involved).
-/

/-- Scan every suffix of a list; `true` iff the predicate holds at some
    start position (this is `re.search` for patterns whose match at a fixed
    position is determined by the characters from that position on). -/
def anyTail (p : List Char → Bool) : List Char → Bool
  | [] => p []
  | c :: cs => p (c :: cs) || anyTail p cs

/-- `needle` occurs at the start of `hay`. -/
def startsWithL : List Char → List Char → Bool
  | [], _ => true
  | _ :: _, [] => false
  | a :: as, b :: bs => a == b && startsWithL as bs

/-- Python `sub in s` on characters: `needle` occurs contiguously in `hay`. -/
def hasSub (needle : List Char) : List Char → Bool
  | [] => startsWithL needle []
  | c :: t => startsWithL needle (c :: t) || hasSub needle t

/-- Python `sub in s` for strings (substring containment). -/
def pyIn (sub s : String) : Bool := hasSub sub.toList s.toList

/-- `s` ends with `suf`. -/
def endsWithL (suf cs : List Char) : Bool := startsWithL suf.reverse cs.reverse

/-- Python `s.endswith(suf)`. -/
def pyEndsWith (s suf : String) : Bool := endsWithL suf.toList s.toList

/-- Python `s.isalpha()` restricted to ASCII input. -/
def pyIsAlpha (w : String) : Bool := !w.toList.isEmpty && w.toList.all Char.isAlpha

/-- Python `s.isalnum()` restricted to ASCII input. -/
def pyIsAlnum (w : String) : Bool := !w.toList.isEmpty && w.toList.all Char.isAlphanum

/-- Python `s.lower()` restricted to ASCII input. -/
def lowerStr (w : String) : String := String.mk (w.toList.map Char.toLower)

/-- Python `s.split(sep)` for a one-character separator: empty pieces kept. -/
def splitOnChar (sep : Char) : List Char → List (List Char)
  | [] => [[]]
  | c :: cs =>
    if c = sep then [] :: splitOnChar sep cs
    else
      match splitOnChar sep cs with
      | r :: rs => (c :: r) :: rs
      | [] => [[c]]

/-- Python `s.strip(c)`: remove `c` from both ends only. -/
def stripChar (c : Char) (cs : List Char) : List Char :=
  ((cs.dropWhile (· == c)).reverse.dropWhile (· == c)).reverse

/-- Monadic map over `Option` written by structural recursion, so that the
    embedding of loops that may fail (or not terminate) is easy to reason
    about. -/
def optMap {α β : Type} (f : α → Option β) : List α → Option (List β)
  | [] => some []
  | a :: t =>
    match f a, optMap f t with
    | some b, some bs => some (b :: bs)
    | _, _ => none

/-- Python `round` (banker's rounding, half to even) on an exact value. -/
def roundHalfEven (q : ℚ) : ℤ :=
  let f := ⌊q⌋
  let r := q - (f : ℚ)
  if r < 1/2 then f
  else if 1/2 < r then f + 1
  else if f % 2 = 0 then f else f + 1

/-- `statistics.mode` (the pre-3.8 contract the source is written against):
    the unique most frequent value, `none` when no unique one exists
    (`StatisticsError`). -/
def pymode (l : List ℤ) : Option ℤ :=
  let cands := l.dedup.filter (fun x => l.dedup.all (fun y => l.count y ≤ l.count x))
  match cands with
  | [x] => some x
  | _ => none

/-- The stress test from `nsyl`: a phoneme counts as syllable-bearing when
    its last character is a digit (`phoneme[-1].isdigit()`). -/
def lastIsDigit (p : String) : Bool :=
  match p.toList.getLast? with
  | some c => c.isDigit
  | none => false

/-- The vowel set of the heuristic fallback. -/
def isVowel (c : Char) : Bool := c == 'a' || c == 'e' || c == 'i' || c == 'o' || c == 'u' || c == 'y'

/-- The inner loop of `syllables`: one count per position `i ≥ 1` with
    `word[i]` a vowel and `word[i-1]` not a vowel; `prev` is `word[i-1]`. -/
def onsetAux (prev : Char) : List Char → ℕ
  | [] => 0
  | c :: cs => (if isVowel c && !isVowel prev then 1 else 0) + onsetAux c cs

/-- Vowel-cluster onsets of `syllables`: `word[0]` counts when it is a
    vowel, and every later vowel whose predecessor is not a vowel counts. -/
def onsetCnt : List Char → ℕ
  | [] => 0
  | c :: cs => (if isVowel c then 1 else 0) + onsetAux c cs

/-- `syllables(word)`: the heuristic fallback estimator, translated line by
    line (lowercase; count vowel-cluster onsets; then the four unconditional
    suffix adjustments in source order; bump a zero count to 1). -/
def syllables (w : String) : ℤ :=
  let wl := (lowerStr w).toList
  let count0 : ℤ := onsetCnt wl
  let count1 := if endsWithL ['e'] wl then count0 - 1 else count0
  let count2 := if endsWithL ['l', 'e'] wl then count1 + 1 else count1
  let count3 := if endsWithL ['s', 'm'] wl then count2 + 1 else count2
  let count4 := if endsWithL ['t', 'h', 'm'] wl then count3 + 1 else count3
  if count4 = 0 then count4 + 1 else count4

/-- The pronunciation dictionary collaborator (`cmudict.dict()`): a word
    maps to the list of its pronunciation variants, each a phoneme list. -/
def PronDict : Type := String → Option (List (List String))

/-- `re.search("[a-zA-Z]+\-[a-zA-Z]+", w)`: some letter, hyphen, letter
    occur contiguously. -/
def hasLHL : List Char → Bool :=
  anyTail fun cs =>
    match cs with
    | a :: b :: c :: _ => a.isAlpha && b == '-' && c.isAlpha
    | _ => false

/-- A regex word character (`\w` over ASCII), used by the `\B` test. -/
def isWordChar (c : Char) : Bool := c.isAlphanum || c == '_'

/-- `re.search("[a-zA-Z]+\-\B", w)`: some letter then a hyphen such that the
    position after the hyphen is not a word boundary; since the character
    before that position is `'-'` (not a word character), the position is a
    non-boundary exactly when it is the end of the string or the next
    character is not a word character. -/
def hasAHB : List Char → Bool :=
  anyTail fun cs =>
    match cs with
    | a :: b :: rest =>
      a.isAlpha && b == '-' &&
        (match rest with
         | [] => true
         | c :: _ => !isWordChar c)
    | _ => false

/-- `nsyl(word)` with explicit fuel: each constructor step is one Python
    call frame, `none` is a computation that never returns a value (the
    recursion in the hyphen branches is not structural, and indeed does not
    terminate on some inputs).  The branch structure follows the source:
    alphabetic words go to the dictionary with the `US`/`us`/`separate`
    overrides, then mode / rounded mean / single variant, with the
    `facebook`/`thefacebook`/`tumblr` overrides and the `syllables` fallback
    on a lookup miss; hyphenated words go through the charset check, the
    letters-hyphen-letters split, and the trailing-hyphen strip; everything
    else is 1.  A dictionary entry with an empty variant list makes
    `syl_list[0]` raise (uncaught `IndexError`), embedded as `none`. -/
def nsylFuel (d : PronDict) : ℕ → String → Option ℤ
  | 0, _ => none
  | fuel + 1, w =>
    if pyIsAlpha w then
      match d (lowerStr w) with
      | some phonemeList =>
        let sylList : List ℤ := phonemeList.map (fun ps => ((ps.countP lastIsDigit : ℕ) : ℤ))
        if w = "US" then some 2
        else if w = "us" then some 1
        else if w = "separate" then some 2
        else if 1 < sylList.length then
          some
            (match pymode sylList with
             | some v => v
             | none => roundHalfEven ((sylList.sum : ℚ) / (sylList.length : ℚ)))
        else
          match sylList with
          | [v] => some v
          | _ => none
      | none =>
        if lowerStr w = "facebook" then some 2
        else if lowerStr w = "thefacebook" then some 3
        else if lowerStr w = "tumblr" then some 2
        else some (syllables w)
    else if w.toList.contains '-' then
      if w.toList.any (fun c => !(c == '-' || c.isAlpha)) then some 1
      else if hasLHL w.toList then
        (optMap (fun piece => nsylFuel d fuel (String.mk piece)) (splitOnChar '-' w.toList)).map
          List.sum
      else if hasAHB w.toList then nsylFuel d fuel (String.mk (stripChar '-' w.toList))
      else some 1
    else some 1

/-- `nsyl(word)`.  Every terminating run of the source recursion has depth
    at most 3 (a split produces hyphen-free pieces, and a strip that makes
    no progress loops forever), so fuel 3 computes exactly the values the
    source returns and is `none` exactly on the non-returning or raising
    inputs. -/
def nsyl (d : PronDict) (w : String) : Option ℤ := nsylFuel d 3 w

/-- `re.search("'[a-zA-z]+", w)`: an apostrophe followed by a character of
    the (typo'd) class `[a-zA-z]`, i.e. ASCII codes 65 to 122 — all letters
    plus the six punctuation characters between `Z` and `a`. -/
def hasApos : List Char → Bool :=
  anyTail fun cs =>
    match cs with
    | a :: b :: _ => a == '\'' && (65 ≤ b.toNat && b.toNat ≤ 122)
    | _ => false

/-- `re.search("\d+\.\d+", w)`: a digit, a dot, a digit, contiguous. -/
def hasDec : List Char → Bool :=
  anyTail fun cs =>
    match cs with
    | a :: b :: c :: _ => a.isDigit && b == '.' && c.isDigit
    | _ => false

/-- A match of `[a-zA-Z]+\.[a-zA-Z]+\.[a-zA-Z]+(\/[a-zA-Z0-9]*)` starting at
    the head of the list: a letter run, a dot, a letter run, a dot, a letter
    run, then a mandatory slash (the trailing `[a-zA-Z0-9]*` always
    matches).  Each `+` is deterministic here because the character after
    the run is not a letter. -/
def domainAt (cs : List Char) : Bool :=
  match cs.dropWhile Char.isAlpha with
  | c1 :: t1 =>
    !(cs.takeWhile Char.isAlpha).isEmpty && c1 == '.' &&
      (match t1.dropWhile Char.isAlpha with
       | c2 :: t2 =>
         !(t1.takeWhile Char.isAlpha).isEmpty && c2 == '.' &&
           (match t2.dropWhile Char.isAlpha with
            | c3 :: _ => !(t2.takeWhile Char.isAlpha).isEmpty && c3 == '/'
            | [] => false)
       | [] => false)
  | [] => false

/-- `re.search("[a-zA-Z]+\.[a-zA-Z]+\.[a-zA-Z]+(\/[a-zA-Z0-9]*)", w)`. -/
def hasDomain : List Char → Bool := anyTail domainAt

/-- The token filter of `get_words_list`: alphanumeric, or an apostrophe
    pattern, or the dotted-domain pattern, or a decimal pattern, or a hyphen
    together with some alphanumeric character. -/
def keepWord (w : String) : Bool :=
  pyIsAlnum w || hasApos w.toList || hasDomain w.toList || hasDec w.toList ||
    (w.toList.contains '-' && w.toList.any Char.isAlphanum)

/-- `get_words_list`: tokenize (external collaborator `wT` stands for
    `nltk.word_tokenize`) and keep the tokens passing the filter. -/
def get_words_list (wT : String → List String) (text : String) : List String :=
  (wT text).filter keepWord

/-- `get_sentence_list`: tokenize into sentences (external collaborator `sT`
    stands for `nltk.sent_tokenize`) and keep those containing a letter. -/
def get_sentence_list (sT : String → List String) (text : String) : List String :=
  (sT text).filter (fun s => s.toList.any Char.isAlpha)

/-- Convert one Python slice index: negative indices count from the end,
    then the result is clamped into `[0, n]`. -/
def pyIdx (n : ℕ) (i : ℤ) : ℕ :=
  (min (n : ℤ) (max 0 (if i < 0 then (n : ℤ) + i else i))).toNat

/-- Python `l[a:b]` (step 1). -/
def pySlice {α : Type} (l : List α) (a b : ℤ) : List α :=
  (l.drop (pyIdx l.length a)).take (pyIdx l.length b - pyIdx l.length a)

/-- The integer square root (largest `s` with `s * s ≤ k`), written as a
    structurally computable count: the numbers `i ≤ k` with `i * i ≤ k` are
    exactly `0, ..., s`, so the count is `s + 1`. -/
def floorSqrt (k : ℕ) : ℕ := ((List.range (k + 1)).countP (fun i => decide (i * i ≤ k))) - 1

/-- `round(math.sqrt(k))` for a natural number `k`: the nearest integer to
    the square root — `s` when `k ≤ s^2 + s` (i.e. `sqrt k < s + 1/2`) and
    `s + 1` otherwise; a tie is impossible since `s^2 + s + 1/4` is never
    an integer. -/
def roundSqrtNat (k : ℕ) : ℕ :=
  let s := floorSqrt k
  if k ≤ s * s + s then s else s + 1

/-- `math.floor(total / 2 - 5)`, the lower middle-slice index of `smog`. -/
def middleLo (n : ℤ) : ℤ := ⌊(n : ℚ) / 2 - 5⌋

/-- `round(total / 2 - 5)`, the upper middle-slice index of `smog`. -/
def middleHi (n : ℤ) : ℤ := roundHalfEven ((n : ℚ) / 2 - 5)

/-- The sample text `selection` built by `smog`: the three sentence groups
    `sentence_list[0:9]`, the floor/round middle slice, and
    `sentence_list[len-10:len]`, each joined by spaces and the three joined
    strings concatenated with nothing in between. -/
def smogSelection (sT : String → List String) (text : String) : String :=
  let sl := get_sentence_list sT text
  let n : ℤ := sl.length
  let start := pySlice sl 0 9
  let middle := pySlice sl (middleLo n) (middleHi n)
  let endg := pySlice sl (n - 10) n
  String.intercalate " " start ++ String.intercalate " " middle ++ String.intercalate " " endg

/-- `smog(input_text)`: re-tokenize the sample, count words of at least 3
    syllables, return `round(sqrt(difficult_words)) + 3`.  `none` when some
    `nsyl` call does not return. -/
def smog (d : PronDict) (sT wT : String → List String) (text : String) : Option ℤ :=
  let words := get_words_list wT (smogSelection sT text)
  (optMap (nsyl d) words).map
    (fun syls => ((roundSqrtNat (syls.countP (fun s => decide (3 ≤ s))) : ℕ) : ℤ) + 3)

/-- The complex-word test of `gfi` on a word, its POS tag and its syllable
    count: at least 3 syllables, tag not containing `NNP`, no hyphen, and
    not (exactly 3 syllables with a `VB` tag and an `es`/`ed`/`ing`
    ending). -/
def complexFlag (s : ℤ) (w tag : String) : Bool :=
  decide (3 ≤ s) && !pyIn "NNP" tag && !w.toList.contains '-' &&
    !(decide (s = 3) && pyIn "VB" tag &&
      (pyEndsWith w "es" || pyEndsWith w "ed" || pyEndsWith w "ing"))

/-- `gfi(input_text)`: `(avg_sentence_len + percentage_complex_words) * 0.4`
    with the complex-word count taken over the POS-tagged word list
    (collaborator `pT` stands for `nltk.pos_tag`).  `none` when a division
    by zero would be raised or some `nsyl` call does not return. -/
def gfi (d : PronDict) (wT sT : String → List String)
    (pT : List String → List (String × String)) (text : String) : Option ℚ :=
  let words := get_words_list wT text
  let sentences := get_sentence_list sT text
  let tagged := pT words
  (optMap (fun it => (nsyl d it.1).map (fun s => complexFlag s it.1 it.2)) tagged).bind
    (fun flags =>
      if words.length = 0 ∨ sentences.length = 0 then none
      else
        some
          (((words.length : ℚ) / (sentences.length : ℚ) +
              (flags.countP id : ℚ) / (words.length : ℚ)) * (0.4 : ℚ)))

/-- Linear interpolation over knot/value pairs sorted by ascending knot
    (`scipy.interpolate.interp1d` with the default linear kind). -/
def interpSorted : List (ℚ × ℚ) → ℚ → ℚ
  | [], _ => 0
  | [p], _ => p.2
  | p :: q :: rest, v =>
    if v ≤ q.1 then p.2 + (q.2 - p.2) * (v - p.1) / (q.1 - p.1)
    else interpSorted (q :: rest) v

/-- Insertion step of the knot sort. -/
def insertByKey (p : ℚ × ℚ) : List (ℚ × ℚ) → List (ℚ × ℚ)
  | [] => [p]
  | q :: qs => if p.1 ≤ q.1 then p :: q :: qs else q :: insertByKey p qs

/-- Sort knot/value pairs by knot (`interp1d` sorts its abscissae). -/
def sortByKey : List (ℚ × ℚ) → List (ℚ × ℚ)
  | [] => []
  | p :: ps => insertByKey p (sortByKey ps)

/-- `interp1d(y, x)` as used by the converters: a piecewise-linear
    interpolant through the pairs `(y[i], x[i])`. -/
def interp1d (ys xs : List ℚ) : ℚ → ℚ := interpSorted (sortByKey (ys.zip xs))

/-- `convert_fres`: clamp below 30 to the string `"24"`, above 100 to the
    string `"10"`, interpolate in between (the source really returns a
    string in the clamp branches and a float otherwise). -/
def convert_fres (v : ℚ) : String ⊕ ℚ :=
  let x : List ℚ := [10, 11, 12, 13, 15, 18, 24]
  let y : List ℚ := [100, 90, 80, 70, 60, 50, 30]
  if v < 30 then Sum.inl "24"
  else if 100 < v then Sum.inl "10"
  else Sum.inr (interp1d y x v)

/-- `convert_ari`: clamp above 14 to `"24"`, below 1 to `"5"` (in that
    order), interpolate in between. -/
def convert_ari (v : ℚ) : String ⊕ ℚ :=
  let x : List ℚ := [5, 6, 7, 9, 10, 11, 12, 13, 14, 15, 16, 17, 18, 24]
  let y : List ℚ := (List.range 14).map (fun i => (i : ℚ) + 1)
  if 14 < v then Sum.inl "24"
  else if v < 1 then Sum.inl "5"
  else Sum.inr (interp1d y x v)

/-- `convert_gfi`: clamp above 17 to `"24"`, below 6 to `"11"` (in that
    order), interpolate in between. -/
def convert_gfi (v : ℚ) : String ⊕ ℚ :=
  let x : List ℚ := [11, 12, 13, 14, 15, 16, 17, 19, 20, 21, 23, 24]
  let y : List ℚ := (List.range 12).map (fun i => (i : ℚ) + 6)
  if 17 < v then Sum.inl "24"
  else if v < 6 then Sum.inl "11"
  else Sum.inr (interp1d y x v)

/-- Concatenation of letter runs with single hyphens, the inverse shape of
    `splitOnChar '-'`. -/
def joinHyphen : List (List Char) → List Char
  | [] => []
  | [p] => p
  | p :: q :: rest => p ++ '-' :: joinHyphen (q :: rest)

/-- The well-formedness the CMU dictionary actually has and the note in the
    spec's data model appeals to: every entry carries at least one
    pronunciation variant and every variant at least one stress-marked
    (digit-final) phoneme. -/
def WFDict (d : PronDict) : Prop :=
  ∀ s vs, d s = some vs → vs ≠ [] ∧ ∀ ps ∈ vs, 1 ≤ ps.countP lastIsDigit

/-- Modelled from the claim's words, for comparison with `smog`: identical
    except that the first sentence group is the first TEN sentences
    (`sentence_list[0:10]`), as claim C1 and the spec describe the
    sampling. -/
def smogSpecC1 (d : PronDict) (sT wT : String → List String) (text : String) : Option ℤ :=
  let sl := get_sentence_list sT text
  let n : ℤ := sl.length
  let start := pySlice sl 0 10
  let middle := pySlice sl (middleLo n) (middleHi n)
  let endg := pySlice sl (n - 10) n
  let selection :=
    String.intercalate " " start ++ String.intercalate " " middle ++ String.intercalate " " endg
  let words := get_words_list wT selection
  (optMap (nsyl d) words).map
    (fun syls => ((roundSqrtNat (syls.countP (fun s => decide (3 ≤ s))) : ℕ) : ℤ) + 3)

/-- A pronunciation dictionary with no entries (lookup always misses). -/
def emptyDict : PronDict := fun _ => none

/-- A dictionary whose single entry has a variant with no stress-marked
    phoneme. -/
def zeroStressDict : PronDict := fun s => if s = "xyz" then some [["K"]] else none

/-- A dictionary with a two-variant entry whose per-variant counts `[1, 2]`
    have no unique mode, and a three-variant entry with unique mode 1. -/
def demoDict : PronDict := fun s =>
  if s = "ab" then some [["AH0"], ["AH0", "IY1"]]
  else if s = "cd" then some [["AH0"], ["AH0"], ["AH1", "IY0"]]
  else none

/-- Sentence-tokenizer stand-in producing 20 fixed sentences, hard words
    only in the tenth one. -/
def sentTok20 : String → List String := fun _ =>
  List.replicate 9 "go" ++ ["beautiful beautiful beautiful beautiful"] ++ List.replicate 10 "go"

/-- Sentence-tokenizer stand-in producing 20 copies of the sentence "a". -/
def sentTok20a : String → List String := fun _ => List.replicate 20 "a"

/-- Word-tokenizer stand-in: split on single spaces (structurally, so that
    concrete runs reduce in the kernel). -/
def wsTok : String → List String := fun s => (splitOnChar ' ' s.toList).map String.mk

/-- Tokenizer stand-in returning no tokens at all. -/
def nilTok : String → List String := fun _ => []

/-- Word-tokenizer stand-in with one hard and one easy word. -/
def wordsTokBC : String → List String := fun _ => ["beautiful", "cat"]

/-- Sentence-tokenizer stand-in with a single sentence. -/
def sentTokX : String → List String := fun _ => ["x."]

/-- POS-tagger stand-in tagging the two demo words adjective and noun. -/
def tagTokBC : List String → List (String × String) := fun ws => ws.zip ["JJ", "NN"]

/-! ## Helper lemmas -/

lemma optMap_eq_map {α β : Type} (f : α → Option β) (g : α → β) :
    ∀ l : List α, (∀ a ∈ l, f a = some (g a)) → optMap f l = some (l.map g) := by
  intro l h
  induction l with
  | nil => rfl
  | cons a t ih =>
    have ha := h a (List.mem_cons_self a t)
    have ht := ih (fun b hb => h b (List.mem_cons_of_mem a hb))
    simp [optMap, ha, ht]

lemma optMap_congr {α β : Type} (f g : α → Option β) :
    ∀ l : List α, (∀ a ∈ l, f a = g a) → optMap f l = optMap g l := by
  intro l h
  induction l with
  | nil => rfl
  | cons a t ih =>
    have ha := h a (List.mem_cons_self a t)
    have ht := ih (fun b hb => h b (List.mem_cons_of_mem a hb))
    simp [optMap, ha, ht]

lemma optMap_isSome {α β : Type} (f : α → Option β) :
    ∀ l : List α, (∀ a ∈ l, (f a).isSome = true) → (optMap f l).isSome = true := by
  intro l h
  induction l with
  | nil => rfl
  | cons a t ih =>
    have ha := h a (List.mem_cons_self a t)
    have ht := ih (fun b hb => h b (List.mem_cons_of_mem a hb))
    rcases Option.isSome_iff_exists.mp ha with ⟨b, hb⟩
    rcases Option.isSome_iff_exists.mp ht with ⟨bs, hbs⟩
    simp [optMap, hb, hbs]

lemma optMap_sub {α β : Type} (f : α → Option β) :
    ∀ (l : List α) (ys : List β), optMap f l = some ys →
      ys.length = l.length ∧ ∀ y ∈ ys, ∃ x ∈ l, f x = some y := by
  intro l
  induction l with
  | nil =>
    intro ys h
    simp [optMap] at h
    subst h
    simp
  | cons a t ih =>
    intro ys h
    simp only [optMap] at h
    rcases ha : f a with _ | b <;> rw [ha] at h
    · exact absurd h (by simp)
    · rcases ht : optMap f t with _ | bs <;> rw [ht] at h
      · exact absurd h (by simp)
      · rcases ih bs ht with ⟨hlen, hmem⟩
        injection h with h
        subst h
        constructor
        · simp [hlen]
        · intro y hy
          rcases List.mem_cons.mp hy with hy | hy
          · exact ⟨a, List.mem_cons_self a t, hy ▸ ha⟩
          · rcases hmem y hy with ⟨x, hx, hfx⟩
            exact ⟨x, List.mem_cons_of_mem a hx, hfx⟩

lemma sum_ge_len_int : ∀ l : List ℤ, (∀ x ∈ l, 1 ≤ x) → (l.length : ℤ) ≤ l.sum := by
  intro l h
  induction l with
  | nil => simp
  | cons a t ih =>
    have ha := h a (List.mem_cons_self a t)
    have ht := ih (fun b hb => h b (List.mem_cons_of_mem a hb))
    simp only [List.length_cons, List.sum_cons]
    push_cast
    omega

lemma anyTail_cons (p : List Char → Bool) (c : Char) (cs : List Char) :
    anyTail p (c :: cs) = (p (c :: cs) || anyTail p cs) := rfl

lemma anyTail_of_tail {p : List Char → Bool} {cs : List Char} (c : Char)
    (h : anyTail p cs = true) : anyTail p (c :: cs) = true := by
  simp [anyTail_cons, h]

lemma anyTail_append_right {p : List Char → Bool} {ys : List Char}
    (h : anyTail p ys = true) : ∀ xs : List Char, anyTail p (xs ++ ys) = true := by
  intro xs
  induction xs with
  | nil => simpa using h
  | cons x t ih => exact anyTail_of_tail x ih

/-! ## C6: age converter clamping -/

/-- C6: the age converters clamp out-of-domain inputs to the literal
    boundary age (returned by the source as the strings "24", "10", "5",
    "11"): every FRES value below 30 maps to 24 and above 100 to 10, every
    ARI value below 1 maps to 5 and above 14 to 24, every GFI value below 6
    maps to 11 and above 17 to 24; in particular at the inputs 20, 110, 0,
    20, 3, 20 named by the claim. -/
theorem age_converters_clamp :
    (∀ v : ℚ, v < 30 → convert_fres v = Sum.inl "24") ∧
    (∀ v : ℚ, 100 < v → convert_fres v = Sum.inl "10") ∧
    (∀ v : ℚ, v < 1 → convert_ari v = Sum.inl "5") ∧
    (∀ v : ℚ, 14 < v → convert_ari v = Sum.inl "24") ∧
    (∀ v : ℚ, v < 6 → convert_gfi v = Sum.inl "11") ∧
    (∀ v : ℚ, 17 < v → convert_gfi v = Sum.inl "24") ∧
    convert_fres 20 = Sum.inl "24" ∧ convert_fres 110 = Sum.inl "10" ∧
    convert_ari 0 = Sum.inl "5" ∧ convert_ari 20 = Sum.inl "24" ∧
    convert_gfi 3 = Sum.inl "11" ∧ convert_gfi 20 = Sum.inl "24" := by
  refine ⟨?_, ?_, ?_, ?_, ?_, ?_, by decide, by decide, by decide, by decide, by decide, by decide⟩
  · intro v h
    simp only [convert_fres]
    rw [if_pos h]
  · intro v h
    simp only [convert_fres]
    rw [if_neg (by linarith), if_pos h]
  · intro v h
    simp only [convert_ari]
    rw [if_neg (by linarith), if_pos h]
  · intro v h
    simp only [convert_ari]
    rw [if_pos h]
  · intro v h
    simp only [convert_gfi]
    rw [if_neg (by linarith), if_pos h]
  · intro v h
    simp only [convert_gfi]
    rw [if_pos h]

/-- C6 witness: the clamp branches applied at concrete inputs. -/
theorem age_converters_clamp_witness :
    convert_fres 20 = Sum.inl "24" ∧ convert_ari 0 = Sum.inl "5" ∧
      convert_gfi 20 = Sum.inl "24" :=
  ⟨age_converters_clamp.1 20 (by norm_num),
   age_converters_clamp.2.2.1 0 (by norm_num),
   age_converters_clamp.2.2.2.2.2.1 20 (by norm_num)⟩

/-! ## C3: nsyl does not terminate on every input -/

/-- C3 (refuting the claim): on the input `"a--b"` the recursion of `nsyl`
    never reaches a base case — the `[a-zA-Z]+\-\B` branch fires, but
    `strip('-')` removes nothing because the hyphens are internal, so the
    function calls itself on the identical string: no amount of fuel
    produces a value. -/
theorem nsyl_nonterminating_input :
    ∀ (d : PronDict) (fuel : ℕ), nsylFuel d fuel "a--b" = none := by
  intro d fuel
  induction fuel with
  | zero => rfl
  | succ f ih =>
    have h1 : pyIsAlpha "a--b" = false := by decide
    have h2 : ("a--b".toList.contains '-') = true := by decide
    have h3 : ("a--b".toList.any fun c => !(c == '-' || c.isAlpha)) = false := by decide
    have h4 : hasLHL "a--b".toList = false := by decide
    have h5 : hasAHB "a--b".toList = true := by decide
    have h6 : String.mk (stripChar '-' "a--b".toList) = "a--b" := by decide
    simp only [nsylFuel, h1, h2, h3, h4, h5, h6, Bool.false_eq_true, if_false, if_true]
    exact ih

/-! ## C8: the heuristic fallback formula -/

lemma onsetAux_ge_one :
    ∀ (cs : List Char) (prev : Char), isVowel prev = false →
      (∃ c ∈ cs, isVowel c = true) → 1 ≤ onsetAux prev cs := by
  intro cs
  induction cs with
  | nil => intro prev _ h; simp at h
  | cons c t ih =>
    intro prev hprev h
    by_cases hc : isVowel c = true
    · simp [onsetAux, hc, hprev]
    · have hb : isVowel c = false := by simpa using hc
      rcases h with ⟨x, hx, hvx⟩
      rcases List.mem_cons.mp hx with rfl | hx
      · exact absurd hvx hc
      · have := ih c hb ⟨x, hx, hvx⟩
        simp only [onsetAux]
        omega

lemma onsetCnt_ge_one {cs : List Char} (h : ∃ c ∈ cs, isVowel c = true) :
    1 ≤ onsetCnt cs := by
  cases cs with
  | nil => simp at h
  | cons c t =>
    by_cases hc : isVowel c = true
    · simp [onsetCnt, hc]
    · have hb : isVowel c = false := by simpa using hc
      rcases h with ⟨x, hx, hvx⟩
      rcases List.mem_cons.mp hx with rfl | hx
      · exact absurd hvx hc
      · have := onsetAux_ge_one t c hb ⟨x, hx, hvx⟩
        simp only [onsetCnt]
        omega

lemma mem_of_endsWith_single {c : Char} {cs : List Char} (h : endsWithL [c] cs = true) :
    c ∈ cs := by
  unfold endsWithL at h
  rw [List.reverse_singleton] at h
  suffices hrev : c ∈ cs.reverse by simpa using hrev
  cases hr : cs.reverse with
  | nil => rw [hr] at h; exact absurd h (by simp [startsWithL])
  | cons b t =>
    rw [hr] at h
    simp only [startsWithL, Bool.and_eq_true, beq_iff_eq] at h
    rw [h.1]
    exact List.mem_cons_self _ _

lemma syllables_eq_clamp (w : String) :
    syllables w =
      max 1 ((onsetCnt (lowerStr w).toList : ℤ)
        - (if endsWithL ['e'] (lowerStr w).toList then 1 else 0)
        + (if endsWithL ['l', 'e'] (lowerStr w).toList then 1 else 0)
        + (if endsWithL ['s', 'm'] (lowerStr w).toList then 1 else 0)
        + (if endsWithL ['t', 'h', 'm'] (lowerStr w).toList then 1 else 0)) := by
  have hnn : (0 : ℤ) ≤ (onsetCnt (lowerStr w).toList : ℤ) := Int.natCast_nonneg _
  by_cases he : endsWithL ['e'] (lowerStr w).toList = true
  · have hon : 1 ≤ onsetCnt (lowerStr w).toList :=
      onsetCnt_ge_one ⟨'e', mem_of_endsWith_single he, by decide⟩
    have hon' : (1 : ℤ) ≤ (onsetCnt (lowerStr w).toList : ℤ) := by exact_mod_cast hon
    simp only [syllables, he, if_true, max_def]
    split_ifs <;> first | contradiction | omega
  · have he' : endsWithL ['e'] (lowerStr w).toList = false := by simpa using he
    simp only [syllables, he', if_false, max_def]
    split_ifs <;> first | contradiction | omega

/-- C8: for a non-empty alphabetic word missed by the dictionary (and not a
    named-entity override), `nsyl` returns the heuristic fallback value:
    the vowel-cluster onset count of the lowercased word, minus 1 for a
    trailing "e", plus 1 for each of the trailing "le", "sm", "thm" (the
    adjustments applied unconditionally in sequence and free to stack),
    clamped to a minimum of 1. -/
theorem heuristic_fallback_formula (d : PronDict) (w : String)
    (halpha : pyIsAlpha w = true)
    (hmiss : d (lowerStr w) = none)
    (hfb : lowerStr w ≠ "facebook") (htfb : lowerStr w ≠ "thefacebook")
    (htb : lowerStr w ≠ "tumblr") :
    nsyl d w =
      some (max 1 ((onsetCnt (lowerStr w).toList : ℤ)
        - (if endsWithL ['e'] (lowerStr w).toList then 1 else 0)
        + (if endsWithL ['l', 'e'] (lowerStr w).toList then 1 else 0)
        + (if endsWithL ['s', 'm'] (lowerStr w).toList then 1 else 0)
        + (if endsWithL ['t', 'h', 'm'] (lowerStr w).toList then 1 else 0))) := by
  have hroute : nsyl d w = some (syllables w) := by
    show nsylFuel d (2 + 1) w = some (syllables w)
    simp only [nsylFuel, halpha, hmiss, if_true]
    rw [if_neg hfb, if_neg htfb, if_neg htb]
  rw [hroute, syllables_eq_clamp]

/-- C8 witness: the fallback on "rhythm" (one vowel-cluster onset at the
    "y", plus the trailing-"thm" adjustment). -/
theorem heuristic_fallback_formula_witness : nsyl emptyDict "rhythm" = some 2 := by
  have h := heuristic_fallback_formula emptyDict "rhythm" (by decide) (by decide)
    (by decide) (by decide) (by decide)
  rw [h]
  decide

/-! ## C2: the word filter -/

lemma domainAt_has_alpha {cs : List Char} (h : domainAt cs = true) :
    ∃ c ∈ cs, c.isAlpha = true := by
  cases cs with
  | nil => simp [domainAt] at h
  | cons c t =>
    by_cases hc : c.isAlpha = true
    · exact ⟨c, List.mem_cons_self _ _, hc⟩
    · have hc' : c.isAlpha = false := by simpa using hc
      rw [domainAt] at h
      rw [List.dropWhile_cons, List.takeWhile_cons] at h
      simp only [hc', Bool.false_eq_true, if_false] at h
      simp at h

lemma hasDomain_has_alpha : ∀ cs : List Char, hasDomain cs = true →
    ∃ c ∈ cs, c.isAlpha = true := by
  intro cs
  induction cs with
  | nil => intro h; exact domainAt_has_alpha h
  | cons c t ih =>
    intro h
    rcases Bool.or_eq_true _ _ |>.mp h with h | h
    · exact domainAt_has_alpha h
    · rcases ih h with ⟨x, hx, hax⟩
      exact ⟨x, List.mem_cons_of_mem c hx, hax⟩

/-- C2 (refuting two parts of the claim): the dotted-domain pattern needs
    three dot-separated letter runs and a mandatory slash, so the token
    "example.com/page" (two runs) and the token "www.example.com" (no
    slash) are both dropped by the filter; and because the contraction
    pattern is the typo'd class `'[a-zA-z]`, the letter-free token "'_" is
    kept although the claim's bare-punctuation test says it is excluded. -/
theorem word_filter_claim_false :
    keepWord "example.com/page" = false ∧ keepWord "www.example.com" = false ∧
      keepWord "'_" = true := by
  refine ⟨by decide, by decide, by decide⟩

/-- C2 (amended): the filter keeps "3.5" (decimal), "don't" (apostrophe
    pattern), "www.example.com/page" (three letter runs, two dots, then the
    mandatory slash), drops "example.com/page", and drops every token that
    has no alphanumeric character, no apostrophe followed by a character of
    the class `[a-zA-z]` (ASCII 65–122), no digit-dot-digit pattern and no
    hyphen. -/
theorem word_filter_retention :
    (∀ w : String,
      (∀ c ∈ w.toList, c.isAlphanum = false) →
      hasApos w.toList = false →
      hasDec w.toList = false →
      w.toList.contains '-' = false →
      keepWord w = false) ∧
    keepWord "3.5" = true ∧ keepWord "don't" = true ∧
    keepWord "www.example.com/page" = true ∧ keepWord "example.com/page" = false := by
  refine ⟨?_, by decide, by decide, by decide, by decide⟩
  intro w hnoaln hapos hdec hhyp
  have halnum : pyIsAlnum w = false := by
    cases hl : w.toList with
    | nil => unfold pyIsAlnum; rw [hl]; rfl
    | cons a t =>
      have ha := hnoaln a (by rw [hl]; exact List.mem_cons_self _ _)
      unfold pyIsAlnum
      rw [hl]
      simp [ha]
  have hdom : hasDomain w.toList = false := by
    by_cases h : hasDomain w.toList = true
    · rcases hasDomain_has_alpha _ h with ⟨c, hc, hac⟩
      have : c.isAlphanum = true := by
        unfold Char.isAlphanum
        simp [hac]
      exact absurd this (by simp [hnoaln c hc])
    · simpa using h
  unfold keepWord
  rw [halnum, hapos, hdom, hdec, hhyp]
  rfl

/-- C2 witness: the exclusion clause applied to the concrete
    bare-punctuation token "!?". -/
theorem word_filter_retention_witness : keepWord "!?" = false :=
  word_filter_retention.1 "!?" (by decide) (by decide) (by decide) (by decide)

/-! ## C9: dictionary variants, mode and mean fallback -/

/-- C9: for an alphabetic word found in the dictionary with more than one
    pronunciation variant (and not one of the three irregular overrides),
    `nsyl` returns the unique statistical mode of the per-variant
    syllable counts when one exists and otherwise the arithmetic mean of
    those counts rounded (half to even, as Python rounds); and a dictionary
    miss is also never surfaced as an error: some value is returned. -/
theorem dict_mode_mean :
    (∀ (d : PronDict) (w : String) (vs : List (List String)),
      pyIsAlpha w = true → d (lowerStr w) = some vs →
      w ≠ "US" → w ≠ "us" → w ≠ "separate" →
      2 ≤ vs.length →
      nsyl d w =
        some
          (match pymode (vs.map fun ps => ((ps.countP lastIsDigit : ℕ) : ℤ)) with
           | some m => m
           | none =>
             roundHalfEven
               (((vs.map fun ps => ((ps.countP lastIsDigit : ℕ) : ℤ)).sum : ℚ) /
                 (vs.length : ℚ)))) ∧
    (∀ (d : PronDict) (w : String),
      pyIsAlpha w = true → d (lowerStr w) = none → ∃ k, nsyl d w = some k) := by
  constructor
  · intro d w vs halpha hlook hUS hus hsep hlen
    show nsylFuel d (2 + 1) w = _
    simp only [nsylFuel, halpha, hlook, if_true]
    rw [if_neg hUS, if_neg hus, if_neg hsep,
      if_pos (by simpa using (by omega : 1 < vs.length))]
    simp [List.length_map]
  · intro d w halpha hmiss
    show ∃ k, nsylFuel d (2 + 1) w = some k
    simp only [nsylFuel, halpha, hmiss, if_true]
    by_cases h1 : lowerStr w = "facebook"
    · exact ⟨2, by rw [if_pos h1]⟩
    · by_cases h2 : lowerStr w = "thefacebook"
      · exact ⟨3, by rw [if_neg h1, if_pos h2]⟩
      · by_cases h3 : lowerStr w = "tumblr"
        · exact ⟨2, by rw [if_neg h1, if_neg h2, if_pos h3]⟩
        · exact ⟨syllables w, by rw [if_neg h1, if_neg h2, if_neg h3]⟩

/-- C9 witness: a two-variant entry with counts `[1, 2]` (no unique mode,
    mean 1.5 rounds half-to-even to 2) and a three-variant entry with
    counts `[1, 1, 2]` (unique mode 1); plus a miss that still returns. -/
theorem dict_mode_mean_witness :
    nsyl demoDict "ab" = some 2 ∧ nsyl demoDict "cd" = some 1 ∧
      ∃ k, nsyl demoDict "zz" = some k := by
  refine ⟨?_, ?_, ?_⟩
  · have h := dict_mode_mean.1 demoDict "ab" [["AH0"], ["AH0", "IY1"]] (by decide) (by decide)
      (by decide) (by decide) (by decide) (by decide)
    have hm : (List.map (fun ps => ((ps.countP lastIsDigit : ℕ) : ℤ)) [["AH0"], ["AH0", "IY1"]])
        = [1, 2] := by decide
    rw [h, hm, show pymode [(1 : ℤ), 2] = none from by decide]
    have hs : ((([(1 : ℤ), 2]).sum : ℤ) : ℚ) = 3 := by norm_num
    have hl : ((([["AH0"], ["AH0", "IY1"]] : List (List String)).length : ℕ) : ℚ) = 2 := by
      norm_num
    rw [hs, hl]
    have hf : ⌊(3 : ℚ) / 2⌋ = 1 := by
      rw [Int.floor_eq_iff]
      norm_num
    simp only [roundHalfEven, hf]
    norm_num
  · have h := dict_mode_mean.1 demoDict "cd" [["AH0"], ["AH0"], ["AH1", "IY0"]] (by decide)
      (by decide) (by decide) (by decide) (by decide) (by decide)
    have hm : (List.map (fun ps => ((ps.countP lastIsDigit : ℕ) : ℤ))
        [["AH0"], ["AH0"], ["AH1", "IY0"]]) = [1, 1, 2] := by decide
    rw [h, hm, show pymode [(1 : ℤ), 1, 2] = some 1 from by decide]
  · exact dict_mode_mean.2 demoDict "zz" (by decide) (by decide)

/-! ## C4: the at-least-one-syllable invariant -/

lemma pymode_mem {l : List ℤ} {v : ℤ} (h : pymode l = some v) : v ∈ l := by
  unfold pymode at h
  rcases hc : l.dedup.filter (fun x => l.dedup.all (fun y => l.count y ≤ l.count x)) with
    _ | ⟨x, _ | ⟨y, ys⟩⟩ <;> rw [hc] at h
  · exact absurd h (by simp)
  · injection h with h
    subst h
    have hx := List.mem_filter.mp (hc ▸ List.mem_cons_self x [])
    exact List.mem_dedup.mp hx.1
  · exact absurd h (by simp)

lemma roundHalfEven_ge_one {q : ℚ} (h : 1 ≤ q) : 1 ≤ roundHalfEven q := by
  have hf : (1 : ℤ) ≤ ⌊q⌋ := by
    rw [Int.le_floor]
    exact_mod_cast h
  simp only [roundHalfEven]
  split_ifs <;> omega

lemma splitOnChar_ne_nil (sep : Char) : ∀ cs : List Char, splitOnChar sep cs ≠ []
  | [] => by simp [splitOnChar]
  | c :: cs => by
    by_cases h : c = sep
    · simp [splitOnChar, h]
    · have hne := splitOnChar_ne_nil sep cs
      cases hs : splitOnChar sep cs with
      | nil => exact absurd hs hne
      | cons r rs => simp [splitOnChar, h, hs]

lemma syllables_ge_one (w : String) : 1 ≤ syllables w := by
  rw [syllables_eq_clamp]
  exact le_max_left _ _

lemma nsylFuel_ge_one {d : PronDict} (hd : WFDict d) :
    ∀ (fuel : ℕ) (w : String) (k : ℤ), nsylFuel d fuel w = some k → 1 ≤ k := by
  intro fuel
  induction fuel with
  | zero => intro w k h; exact absurd h (by simp [nsylFuel])
  | succ f ih =>
    intro w k h
    by_cases ha : pyIsAlpha w = true
    · rcases hl : d (lowerStr w) with _ | vs
      · simp only [nsylFuel, ha, hl, if_true] at h
        split_ifs at h <;> (injection h with h; subst h)
        · norm_num
        · norm_num
        · norm_num
        · exact syllables_ge_one w
      · rcases hd (lowerStr w) vs hl with ⟨hne, hvar⟩
        simp only [nsylFuel, ha, hl, if_true] at h
        split_ifs at h with h1 h2 h3 h4
        · injection h with h; omega
        · injection h with h; omega
        · injection h with h; omega
        · injection h with h
          subst h
          rcases hm : pymode (vs.map fun ps => ((ps.countP lastIsDigit : ℕ) : ℤ)) with _ | v
          · simp only [hm]
            apply roundHalfEven_ge_one
            have hlen : 0 < (vs.map fun ps => ((ps.countP lastIsDigit : ℕ) : ℤ)).length := by
              simp only [List.length_map]
              cases vs with
              | nil => exact absurd rfl hne
              | cons a t => simp
            have hsum : ((vs.map fun ps => ((ps.countP lastIsDigit : ℕ) : ℤ)).length : ℤ) ≤
                (vs.map fun ps => ((ps.countP lastIsDigit : ℕ) : ℤ)).sum := by
              apply sum_ge_len_int
              intro x hx
              rcases List.mem_map.mp hx with ⟨ps, hps, rfl⟩
              exact_mod_cast hvar ps hps
            rw [le_div_iff (by exact_mod_cast hlen), one_mul]
            exact_mod_cast hsum
          · simp only [hm]
            have hv := pymode_mem hm
            rcases List.mem_map.mp hv with ⟨ps, hps, rfl⟩
            exact_mod_cast hvar ps hps
        · rcases hsl : vs.map (fun ps => ((ps.countP lastIsDigit : ℕ) : ℤ)) with _ | ⟨v, _ | _⟩ <;>
            rw [hsl] at h
          · exact absurd h (by simp)
          · injection h with h
            subst h
            have hvv : v ∈ vs.map (fun ps => ((ps.countP lastIsDigit : ℕ) : ℤ)) := by
              rw [hsl]; exact List.mem_cons_self _ _
            rcases List.mem_map.mp hvv with ⟨ps, hps, hval⟩
            rw [← hval]
            exact_mod_cast hvar ps hps
          · exact absurd h (by simp)
    · have ha' : pyIsAlpha w = false := by simpa using ha
      by_cases hc : w.toList.contains '-' = true
      · simp only [nsylFuel, ha', hc, Bool.false_eq_true, if_false, if_true] at h
        split_ifs at h with h1 h2 h3
        · injection h with h; omega
        · rcases ho : optMap (fun piece => nsylFuel d f (String.mk piece))
              (splitOnChar '-' w.toList) with _ | ys <;> rw [ho] at h
          · exact absurd h (by simp)
          · simp only [Option.map_some'] at h
            injection h with h
            subst h
            rcases optMap_sub _ _ _ ho with ⟨hlen, hmem⟩
            have hy : ∀ y ∈ ys, 1 ≤ y := by
              intro y hy
              rcases hmem y hy with ⟨p, _, hp⟩
              exact ih (String.mk p) y hp
            have hlp : 0 < (splitOnChar '-' w.toList).length :=
              List.length_pos.mpr (splitOnChar_ne_nil '-' w.toList)
            have := sum_ge_len_int ys hy
            omega
        · exact ih _ k h
        · injection h with h; omega
      · have hc' : w.toList.contains '-' = false := by simpa using hc
        simp only [nsylFuel, ha', hc', Bool.false_eq_true, if_false] at h
        injection h with h
        omega

/-- C4 (refuting the claim): under a dictionary entry whose single
    pronunciation variant has no stress-marked phoneme, `nsyl` returns 0,
    so the dictionary branch is not unconditionally at least 1. -/
theorem nsyl_ge_one_claim_false :
    nsyl zeroStressDict "xyz" = some 0 ∧ ¬(1 ≤ (0 : ℤ)) := ⟨by decide, by decide⟩

/-- C4 (amended): for every alphabetic or hyphen-containing word, every
    value that `nsyl` returns is at least 1, provided the dictionary is
    well-formed in the sense the spec's data model describes (every
    consulted variant carries at least one stress-marked phoneme; the CMU
    dictionary satisfies this): so the overrides, the heuristic fallback
    and the hyphen branches are unconditionally at least 1, and the
    dictionary branch is at least 1 under that proviso. -/
theorem nsyl_ge_one (d : PronDict) (hd : WFDict d) (w : String) (k : ℤ)
    (hw : pyIsAlpha w = true ∨ w.toList.contains '-' = true)
    (h : nsyl d w = some k) : 1 ≤ k :=
  nsylFuel_ge_one hd 3 w k h

/-- C4 witness: an alphabetic word under the empty (vacuously well-formed)
    dictionary. -/
theorem nsyl_ge_one_witness : nsyl emptyDict "cat" = some 1 ∧ (1 : ℤ) ≤ 1 :=
  ⟨by decide,
   nsyl_ge_one emptyDict (fun s vs h => by simp [emptyDict] at h) "cat" 1
     (Or.inl (by decide)) (by decide)⟩

/-! ## C7: hyphen splitting is additive -/

lemma joinHyphen_cons₂ (p q : List Char) (rest : List (List Char)) :
    joinHyphen (p :: q :: rest) = p ++ '-' :: joinHyphen (q :: rest) := rfl

lemma joinHyphen_splitOnChar : ∀ cs : List Char, joinHyphen (splitOnChar '-' cs) = cs := by
  intro cs
  induction cs with
  | nil => rfl
  | cons c t ih =>
    by_cases h : c = '-'
    · subst h
      cases hs : splitOnChar '-' t with
      | nil => exact absurd hs (splitOnChar_ne_nil '-' t)
      | cons q qs =>
        have hsplit : splitOnChar '-' ('-' :: t) = [] :: q :: qs := by
          simp [splitOnChar, hs]
        rw [hsplit, joinHyphen_cons₂]
        simp only [List.nil_append]
        rw [← hs, ih]
    · cases hs : splitOnChar '-' t with
      | nil => exact absurd hs (splitOnChar_ne_nil '-' t)
      | cons r rs =>
        have hsplit : splitOnChar '-' (c :: t) = (c :: r) :: rs := by
          simp [splitOnChar, h, hs]
        rw [hsplit]
        cases rs with
        | nil =>
          rw [hs] at ih
          show c :: r = c :: t
          rw [show joinHyphen [r] = r from rfl] at ih
          rw [ih]
        | cons s ss =>
          rw [hs] at ih
          rw [joinHyphen_cons₂, List.cons_append]
          show c :: (r ++ '-' :: joinHyphen (s :: ss)) = c :: t
          rw [← joinHyphen_cons₂, ih]

lemma mem_joinHyphen : ∀ (ps : List (List Char)) (c : Char), c ∈ joinHyphen ps →
    (∃ p ∈ ps, c ∈ p) ∨ c = '-' := by
  intro ps
  induction ps with
  | nil => intro c h; simp [joinHyphen] at h
  | cons p qs ih =>
    intro c h
    cases qs with
    | nil => exact Or.inl ⟨p, List.mem_cons_self _ _, h⟩
    | cons q rs =>
      rw [joinHyphen_cons₂] at h
      rcases List.mem_append.mp h with h | h
      · exact Or.inl ⟨p, List.mem_cons_self _ _, h⟩
      · rcases List.mem_cons.mp h with rfl | h
        · exact Or.inr rfl
        · rcases ih c h with ⟨p', hp', hc⟩ | hc
          · exact Or.inl ⟨p', List.mem_cons_of_mem _ hp', hc⟩
          · exact Or.inr hc

lemma hasLHL_cons_of (c : Char) {cs : List Char} (h : hasLHL cs = true) :
    hasLHL (c :: cs) = true := by
  unfold hasLHL at h ⊢
  exact anyTail_of_tail c h

lemma hasLHL_head {a b : Char} (t : List Char) (ha : a.isAlpha = true) (hb : b.isAlpha = true) :
    hasLHL (a :: '-' :: b :: t) = true := by
  unfold hasLHL
  rw [anyTail_cons]
  simp [ha, hb]

lemma hasLHL_glue : ∀ p : List Char, p ≠ [] → (∀ c ∈ p, c.isAlpha = true) →
    ∀ (b : Char) (t : List Char), b.isAlpha = true → hasLHL (p ++ '-' :: b :: t) = true := by
  intro p
  induction p with
  | nil => intro h; exact absurd rfl h
  | cons a p' ih =>
    intro _ hall b t hb
    cases p' with
    | nil => simpa using hasLHL_head t (hall a (List.mem_cons_self _ _)) hb
    | cons x xs =>
      have hrec : hasLHL ((x :: xs) ++ '-' :: b :: t) = true :=
        ih (by simp) (fun c hc => hall c (List.mem_cons_of_mem _ hc)) b t hb
      simpa using hasLHL_cons_of a hrec

lemma nsylFuel_alpha_eq (d : PronDict) {w : String} (ha : pyIsAlpha w = true) (f g : ℕ) :
    nsylFuel d (f + 1) w = nsylFuel d (g + 1) w := by
  conv_lhs => rw [nsylFuel]
  conv_rhs => rw [nsylFuel]
  rw [if_pos ha, if_pos ha]

lemma nsylFuel_split_branch (d : PronDict) (f : ℕ) (w : String)
    (halpha : pyIsAlpha w = false) (hcont : w.toList.contains '-' = true)
    (hchar : (w.toList.any fun c => !(c == '-' || c.isAlpha)) = false)
    (hlhl : hasLHL w.toList = true) :
    nsylFuel d (f + 1) w =
      (optMap (fun piece => nsylFuel d f (String.mk piece)) (splitOnChar '-' w.toList)).map
        List.sum := by
  conv_lhs => rw [nsylFuel]
  rw [if_neg (by rw [halpha]; exact Bool.false_ne_true), if_pos hcont,
    if_neg (by rw [hchar]; exact Bool.false_ne_true), if_pos hlhl]

/-- C7: for every word shaped as non-empty alphabetic runs separated by
    single hyphens (the letters-hyphen-letters shape, i.e. every
    hyphen-split piece non-empty and alphabetic, with at least two pieces),
    `nsyl` equals the sum of `nsyl` over the pieces; in particular on
    "well-known" it is `nsyl "well" + nsyl "known"`. -/
theorem hyphen_additive :
    (∀ (d : PronDict) (w : String),
      2 ≤ (splitOnChar '-' w.toList).length →
      (∀ p ∈ splitOnChar '-' w.toList, p ≠ [] ∧ p.all Char.isAlpha = true) →
      nsyl d w =
        (optMap (fun p => nsyl d (String.mk p)) (splitOnChar '-' w.toList)).map List.sum) ∧
    (∀ d : PronDict, nsyl d "well-known" =
      (do
        let a ← nsyl d "well"
        let b ← nsyl d "known"
        pure (a + b))) := by
  have main : ∀ (d : PronDict) (w : String),
      2 ≤ (splitOnChar '-' w.toList).length →
      (∀ p ∈ splitOnChar '-' w.toList, p ≠ [] ∧ p.all Char.isAlpha = true) →
      nsyl d w =
        (optMap (fun p => nsyl d (String.mk p)) (splitOnChar '-' w.toList)).map List.sum := by
    intro d w hlen hp
    rcases hsp : splitOnChar '-' w.toList with _ | ⟨p1, rest1⟩
    · exact absurd hsp (splitOnChar_ne_nil _ _)
    rcases rest1 with _ | ⟨p2, rest⟩
    · rw [hsp] at hlen; simp at hlen
    have hjoin := joinHyphen_splitOnChar w.toList
    rw [hsp] at hjoin
    have hwl : w.toList = p1 ++ '-' :: joinHyphen (p2 :: rest) := by
      rw [← hjoin, joinHyphen_cons₂]
    have hmem : '-' ∈ w.toList := by
      rw [hwl]; exact List.mem_append_right _ (List.mem_cons_self _ _)
    have hcont : w.toList.contains '-' = true := by
      simpa using hmem
    have halpha : pyIsAlpha w = false := by
      have hall : w.toList.all Char.isAlpha = false := by
        by_cases h : w.toList.all Char.isAlpha = true
        · exact absurd (List.all_eq_true.mp h '-' hmem) (by decide)
        · simpa using h
      unfold pyIsAlpha
      rw [hall, Bool.and_false]
    have hp1 := hp p1 (by rw [hsp]; exact List.mem_cons_self _ _)
    have hp2 := hp p2 (by rw [hsp]; exact List.mem_cons_of_mem _ (List.mem_cons_self _ _))
    have hchar : (w.toList.any fun c => !(c == '-' || c.isAlpha)) = false := by
      rw [List.any_eq_false]
      intro c hc
      rw [← hjoin] at hc
      rcases mem_joinHyphen _ c hc with ⟨p, hpm, hcp⟩ | rfl
      · have hcal := List.all_eq_true.mp (hp p (by rw [hsp]; exact hpm)).2 c hcp
        simp [hcal]
      · simp
    have hlhl : hasLHL w.toList = true := by
      rcases hp2 with ⟨hne2, hall2⟩
      cases p2 with
      | nil => exact absurd rfl hne2
      | cons b t2 =>
        have hb : b.isAlpha = true := List.all_eq_true.mp hall2 b (List.mem_cons_self _ _)
        have hhead : ∃ tt, joinHyphen ((b :: t2) :: rest) = b :: tt := by
          cases rest with
          | nil => exact ⟨t2, rfl⟩
          | cons r rs => exact ⟨t2 ++ '-' :: joinHyphen (r :: rs), rfl⟩
        rcases hhead with ⟨tt, htt⟩
        rw [hwl, htt]
        exact hasLHL_glue p1 hp1.1 (fun c hc => List.all_eq_true.mp hp1.2 c hc) b tt hb
    show nsylFuel d (2 + 1) w = _
    rw [nsylFuel_split_branch d 2 w halpha hcont hchar hlhl, hsp]
    congr 1
    apply optMap_congr
    intro p hpmem
    have hpa : pyIsAlpha (String.mk p) = true := by
      rcases hp p (by rw [hsp]; exact hpmem) with ⟨hne, hall⟩
      cases p with
      | nil => exact absurd rfl hne
      | cons a t =>
        show (!(a :: t).isEmpty && (a :: t).all Char.isAlpha) = true
        simp only [List.isEmpty_cons, Bool.not_false, Bool.true_and]
        exact hall
    exact nsylFuel_alpha_eq d hpa 1 2
  refine ⟨main, ?_⟩
  intro d
  have h := main d "well-known" (by decide) (by decide)
  rw [h]
  rw [show splitOnChar '-' "well-known".toList = [['w', 'e', 'l', 'l'], ['k', 'n', 'o', 'w', 'n']]
    from by decide]
  cases hw2 : nsyl d "well" <;> cases hk2 : nsyl d "known" <;>
    simp [optMap, hw2, hk2,
      show (String.mk ['w', 'e', 'l', 'l'] : String) = "well" from rfl,
      show (String.mk ['k', 'n', 'o', 'w', 'n'] : String) = "known" from rfl]

/-- C7 witness: "well-known" under the empty dictionary (heuristic gives 1
    syllable to each piece). -/
theorem hyphen_additive_witness : nsyl emptyDict "well-known" = some 2 := by
  have h := hyphen_additive.1 emptyDict "well-known" (by decide) (by decide)
  rw [h]
  decide

/-! ## C5: the GFI formula and complex-word rule -/

lemma complexFlag_decide (s : ℤ) (w tag : String) :
    complexFlag s w tag =
      decide ((3 ≤ s) ∧ ¬(pyIn "NNP" tag = true) ∧ ¬(w.toList.contains '-' = true) ∧
        ¬(s = 3 ∧ pyIn "VB" tag = true ∧
          (pyEndsWith w "es" = true ∨ pyEndsWith w "ed" = true ∨
            pyEndsWith w "ing" = true))) := by
  simp only [Bool.decide_and, decide_not, Bool.decide_or, Bool.decide_coe]
  unfold complexFlag
  simp [Bool.and_assoc]

/-- C5: for every text with at least one word and one sentence (and whose
    words all get a syllable count, with the tagger aligned positionally
    with the word list), `gfi` returns
    `(totalWords/totalSentences + complexWords/totalWords) * 0.4` — the
    complex fraction a plain ratio, not times 100 — where a word counts as
    complex exactly when its syllable count is at least 3, its tag does not
    contain "NNP", it has no hyphen, and it is not a 3-syllable word with a
    "VB" tag ending in "es", "ed" or "ing". -/
theorem gfi_formula (d : PronDict) (wT sT : String → List String)
    (pT : List String → List (String × String)) (text : String)
    (syl : String → ℤ) (tags : List String)
    (hsyl : ∀ w ∈ get_words_list wT text, nsyl d w = some (syl w))
    (htag : pT (get_words_list wT text) = (get_words_list wT text).zip tags)
    (hW : get_words_list wT text ≠ []) (hS : get_sentence_list sT text ≠ []) :
    gfi d wT sT pT text =
      some ((((get_words_list wT text).length : ℚ) / ((get_sentence_list sT text).length : ℚ) +
        ((((get_words_list wT text).zip tags).countP (fun it =>
            decide ((3 ≤ syl it.1) ∧ ¬(pyIn "NNP" it.2 = true) ∧
              ¬(it.1.toList.contains '-' = true) ∧
              ¬(syl it.1 = 3 ∧ pyIn "VB" it.2 = true ∧
                (pyEndsWith it.1 "es" = true ∨ pyEndsWith it.1 "ed" = true ∨
                  pyEndsWith it.1 "ing" = true)))) : ℕ) : ℚ) /
          ((get_words_list wT text).length : ℚ)) * (0.4 : ℚ)) := by
  simp only [gfi]
  rw [htag]
  rw [optMap_eq_map _ (fun it => complexFlag (syl it.1) it.1 it.2) _ ?_]
  · rw [Option.some_bind]
    rw [if_neg (by
      rintro (h | h)
      · exact hW (List.length_eq_zero.mp h)
      · exact hS (List.length_eq_zero.mp h))]
    rw [List.countP_map]
    have hc : List.countP (id ∘ fun it => complexFlag (syl it.1) it.1 it.2)
        ((get_words_list wT text).zip tags) =
        List.countP (fun it =>
          decide ((3 ≤ syl it.1) ∧ ¬(pyIn "NNP" it.2 = true) ∧
            ¬(it.1.toList.contains '-' = true) ∧
            ¬(syl it.1 = 3 ∧ pyIn "VB" it.2 = true ∧
              (pyEndsWith it.1 "es" = true ∨ pyEndsWith it.1 "ed" = true ∨
                pyEndsWith it.1 "ing" = true))))
          ((get_words_list wT text).zip tags) := by
      apply List.countP_congr
      intro it _
      show (id (complexFlag (syl it.1) it.1 it.2) = true) ↔ _
      rw [id, complexFlag_decide]
    rw [hc]
  · intro it hit
    have hw := (List.of_mem_zip hit).1
    rw [hsyl it.1 hw]
    rfl

/-- C5 witness: two words ("beautiful" JJ with 3 syllables, "cat" NN with
    1) in one sentence give `(2/1 + 1/2) * 0.4 = 1`. -/
theorem gfi_formula_witness : gfi emptyDict wordsTokBC sentTokX tagTokBC "t" = some 1 := by
  have h := gfi_formula emptyDict wordsTokBC sentTokX tagTokBC "t"
    (fun w => if w = "beautiful" then 3 else 1) ["JJ", "NN"]
    (by decide) (by decide) (by decide) (by decide)
  rw [h]
  rw [show get_words_list wordsTokBC "t" = ["beautiful", "cat"] from by decide,
    show get_sentence_list sentTokX "t" = ["x."] from by decide,
    show (["beautiful", "cat"].zip ["JJ", "NN"]) = [("beautiful", "JJ"), ("cat", "NN")] from by
      decide]
  simp +decide only [List.countP_cons, List.countP_nil, List.length_cons, List.length_nil]
  norm_num

/-! ## C1 and C10: SMOG sampling and short-text behaviour -/

lemma pySlice_nil {α : Type} (a b : ℤ) : pySlice ([] : List α) a b = [] := by
  unfold pySlice
  simp

lemma pySlice_zero_nine {α : Type} (l : List α) : pySlice l 0 9 = l.take 9 := by
  unfold pySlice
  have h0 : pyIdx l.length 0 = 0 := by unfold pyIdx; split_ifs <;> omega
  have h9 : pyIdx l.length 9 = min l.length 9 := by unfold pyIdx; split_ifs <;> omega
  rw [h0, h9]
  simp only [List.drop_zero, Nat.sub_zero]
  rw [min_comm, ← List.take_take, List.take_length]

lemma pySlice_end {α : Type} (l : List α) (h : 10 ≤ l.length) :
    pySlice l ((l.length : ℤ) - 10) (l.length : ℤ) = l.drop (l.length - 10) := by
  unfold pySlice
  have h1 : pyIdx l.length ((l.length : ℤ) - 10) = l.length - 10 := by
    unfold pyIdx; split_ifs <;> omega
  have h2 : pyIdx l.length (l.length : ℤ) = l.length := by
    unfold pyIdx; split_ifs <;> omega
  rw [h1, h2]
  apply List.take_of_length_le
  rw [List.length_drop]

lemma middleLo_20 : middleLo 20 = 5 := by
  unfold middleLo
  rw [show (((20 : ℤ) : ℚ) / 2 - 5 : ℚ) = ((5 : ℤ) : ℚ) by norm_num]
  exact Int.floor_intCast 5

lemma middleHi_20 : middleHi 20 = 5 := by
  unfold middleHi
  rw [show (((20 : ℤ) : ℚ) / 2 - 5 : ℚ) = ((5 : ℤ) : ℚ) by norm_num]
  simp only [roundHalfEven, Int.floor_intCast]
  norm_num

/-- C1 (refuting the claim): with 20 sentences, `smog` samples only the
    FIRST NINE sentences (the source slices `sentence_list[0:9]`), not the
    first ten: against a model that takes the first ten (`smogSpecC1`,
    written from the claim's words) the scores differ on a text whose tenth
    sentence carries all the hard words. -/
theorem smog_sample_claim_false :
    smog emptyDict sentTok20 wsTok "x" = some 3 ∧
    smogSpecC1 emptyDict sentTok20 wsTok "x" = some 5 ∧
    smog emptyDict sentTok20 wsTok "x" ≠ smogSpecC1 emptyDict sentTok20 wsTok "x" := by
  have hsl : get_sentence_list sentTok20 "x" =
      List.replicate 9 "go" ++ ["beautiful beautiful beautiful beautiful"] ++
        List.replicate 10 "go" := by decide
  have hlen : ((get_sentence_list sentTok20 "x").length : ℤ) = 20 := by rw [hsl]; decide
  have h1 : smog emptyDict sentTok20 wsTok "x" = some 3 := by
    simp only [smog, smogSelection]
    rw [hlen, hsl, middleLo_20, middleHi_20]
    decide
  have h2 : smogSpecC1 emptyDict sentTok20 wsTok "x" = some 5 := by
    simp only [smogSpecC1]
    rw [hlen, hsl, middleLo_20, middleHi_20]
    decide
  exact ⟨h1, h2, by rw [h1, h2]; decide⟩

/-- C1 (amended): for a sentence list of n ≥ 20 sentences (and words whose
    syllable counts all resolve), `smog` builds its sample from the first
    NINE sentences (`[0:9]`), the middle slice
    `[floor(n/2 - 5) : round(n/2 - 5)]`, and the last 10 sentences, each
    group space-joined and the groups concatenated with no separator,
    re-tokenizes the sample, and returns `round(sqrt(d)) + 3` where d is
    the number of sample words with at least 3 syllables. -/
theorem smog_sample_first_nine (d : PronDict) (sT wT : String → List String) (text : String)
    (syl : String → ℤ)
    (h20 : 20 ≤ (get_sentence_list sT text).length)
    (hsyl : ∀ w ∈ get_words_list wT (smogSelection sT text), nsyl d w = some (syl w)) :
    smog d sT wT text =
      some (((roundSqrtNat ((((get_words_list wT
        (String.intercalate " " ((get_sentence_list sT text).take 9) ++
         String.intercalate " " (pySlice (get_sentence_list sT text)
           (middleLo ((get_sentence_list sT text).length : ℤ))
           (middleHi ((get_sentence_list sT text).length : ℤ))) ++
         String.intercalate " " ((get_sentence_list sT text).drop
           ((get_sentence_list sT text).length - 10)))).map syl).countP
             (fun s => decide (3 ≤ s)))) : ℕ) : ℤ) + 3) := by
  have hsel : smogSelection sT text =
      String.intercalate " " ((get_sentence_list sT text).take 9) ++
      String.intercalate " " (pySlice (get_sentence_list sT text)
        (middleLo ((get_sentence_list sT text).length : ℤ))
        (middleHi ((get_sentence_list sT text).length : ℤ))) ++
      String.intercalate " " ((get_sentence_list sT text).drop
        ((get_sentence_list sT text).length - 10)) := by
    simp only [smogSelection]
    rw [pySlice_zero_nine, pySlice_end _ (by omega)]
  rw [hsel] at hsyl
  simp only [smog]
  rw [hsel, optMap_eq_map (nsyl d) syl _ hsyl]
  rw [Option.map_some']

/-- C1 witness: twenty one-word sentences, every word one syllable. -/
theorem smog_sample_first_nine_witness : smog emptyDict sentTok20a wsTok "x" = some 3 := by
  have hsl : get_sentence_list sentTok20a "x" = List.replicate 20 "a" := by decide
  have hlen : ((get_sentence_list sentTok20a "x").length : ℤ) = 20 := by rw [hsl]; decide
  have hsel : smogSelection sentTok20a "x" =
      "a a a a a a a a a" ++ "" ++ "a a a a a a a a a a" := by
    simp only [smogSelection]
    rw [hlen, hsl, middleLo_20, middleHi_20]
    decide
  have h := smog_sample_first_nine emptyDict sentTok20a wsTok "x" (fun _ => (1 : ℤ))
    (by rw [hsl]; decide) (by rw [hsel]; decide)
  rw [h, hlen, hsl, middleLo_20, middleHi_20]
  decide

/-- C10 (refuting one part of the claim): for a sentence list of 6
    sentences, the end slice `sentence_list[6-10 : 6]` is the LAST FOUR
    sentences, not the whole list — Python wraps the negative start index
    to `2*6-10 = 2`. -/
theorem smog_end_slice_claim_false :
    pySlice ["s1", "s2", "s3", "s4", "s5", "s6"] ((6 : ℤ) - 10) 6 = ["s3", "s4", "s5", "s6"] ∧
    pySlice ["s1", "s2", "s3", "s4", "s5", "s6"] ((6 : ℤ) - 10) 6 ≠
      ["s1", "s2", "s3", "s4", "s5", "s6"] := ⟨by decide, by decide⟩

/-- C10 (amended): `smog` performs no division by word or sentence counts:
    on an empty sentence list it returns 3 (given the tokenizer returns no
    tokens for empty text, as nltk does); the end slice equals the entire
    sentence list when n ≤ 5 (negative wrapped start clamps to 0) or
    n = 10, while for 6 ≤ n ≤ 9 it is only the last 10−n sentences; and
    whenever every sampled word's syllable count resolves, `smog` yields a
    result instead of failing. -/
theorem smog_short_text_safe :
    (∀ (d : PronDict) (sT wT : String → List String) (text : String),
      get_sentence_list sT text = [] → wT "" = [] → smog d sT wT text = some 3) ∧
    (∀ sl : List String, sl.length ≤ 5 ∨ sl.length = 10 →
      pySlice sl ((sl.length : ℤ) - 10) (sl.length : ℤ) = sl) ∧
    (∀ (d : PronDict) (sT wT : String → List String) (text : String),
      (∀ w ∈ get_words_list wT (smogSelection sT text), (nsyl d w).isSome = true) →
      (smog d sT wT text).isSome = true) := by
  refine ⟨?_, ?_, ?_⟩
  · intro d sT wT text hsl hw
    simp only [smog, smogSelection]
    rw [hsl, pySlice_nil, pySlice_nil, pySlice_nil]
    show (optMap (nsyl d) (get_words_list wT ("" ++ "" ++ ""))).map _ = some 3
    rw [show ("" ++ "" ++ "" : String) = "" from rfl]
    unfold get_words_list
    rw [hw]
    rfl
  · intro sl h
    have h1 : pyIdx sl.length ((sl.length : ℤ) - 10) = 0 := by
      unfold pyIdx; split_ifs <;> omega
    have h2 : pyIdx sl.length (sl.length : ℤ) = sl.length := by
      unfold pyIdx; split_ifs <;> omega
    unfold pySlice
    rw [h1, h2]
    simp [List.take_length]
  · intro d sT wT text hws
    simp only [smog]
    rw [Option.isSome_map']
    exact optMap_isSome _ _ hws

/-- C10 witness: the empty-text case and a 3-sentence end slice. -/
theorem smog_short_text_safe_witness :
    smog emptyDict nilTok nilTok "" = some 3 ∧
      pySlice ["a", "b", "c"] ((3 : ℤ) - 10) 3 = ["a", "b", "c"] := by
  constructor
  · exact smog_short_text_safe.1 emptyDict nilTok nilTok "" (by decide) (by decide)
  · have h := smog_short_text_safe.2.1 ["a", "b", "c"] (Or.inl (by norm_num))
    simpa using h
